import Mathlib

/-!
Verification development for the BiasDetectorTasks repository.

The repository's flows share two pieces of reusable logic:

* `ensureValidJson` (the "ResponseNormalizer"): an ordered chain of textual
  repair phases applied to an LLM completion until it parses as JSON, bounded
  by a repair budget;
* a bounded retry loop (the "RetryingGenerator") wrapping
  "submit prompt -> await completion with timeout -> parse -> validate".

JavaScript strings are modelled as `List Char` (`JStr`); `JSON.parse` and
`JSON.stringify` (which are language built-ins, not repository code) are
modelled by an executable parser `parseJsonL` and printer `printJsonL` over a
`Json` value type with integer numbers.  External collaborators (the `llm`
module) are modelled as function parameters.  All definitions are structurally
recursive (fuel-based where needed) so that they evaluate inside the kernel.
-/

/-- A JavaScript string, modelled as its list of characters. -/
abbrev JStr := List Char

/-- JSON whitespace as accepted by `JSON.parse`: space, tab, newline, carriage
return. -/
def isJsonWs (c : Char) : Bool :=
  c = ' ' || c = '\t' || c = '\n' || c = '\r'

/-- The character class of the JavaScript regex `\s` (restricted to the code
points that can actually reach the places where it is used): ASCII whitespace
plus the non-ASCII whitespace code points of JavaScript. -/
def isRegexWs (c : Char) : Bool :=
  c = ' ' || c = '\t' || c = '\n' || c = '\r' ||
  c = Char.ofNat 11 || c = Char.ofNat 12 ||
  c = Char.ofNat 0xA0 || c = Char.ofNat 0x1680 ||
  (0x2000 ≤ c.toNat && c.toNat ≤ 0x200A) ||
  c = Char.ofNat 0x2028 || c = Char.ofNat 0x2029 ||
  c = Char.ofNat 0x202F || c = Char.ofNat 0x205F ||
  c = Char.ofNat 0x3000 || c = Char.ofNat 0xFEFF

/-- The decimal digit characters, by value. -/
def digitChar : Nat → Char
  | 0 => '0' | 1 => '1' | 2 => '2' | 3 => '3' | 4 => '4'
  | 5 => '5' | 6 => '6' | 7 => '7' | 8 => '8' | 9 => '9'
  | _ => '*'

/-- Numeric value of a decimal digit character. -/
def digitVal (c : Char) : Nat := c.toNat - 48

/-- Decimal digits of a natural number, most significant first (fuel-based so
that it reduces in the kernel; `n + 1` units of fuel always suffice). -/
def natDigitsF : Nat → Nat → List Char
  | 0, _ => []
  | fuel + 1, n =>
    if n < 10 then [digitChar n]
    else natDigitsF fuel (n / 10) ++ [digitChar (n % 10)]

/-- Decimal digits of a natural number. -/
def natDigits (n : Nat) : List Char := natDigitsF (n + 1) n

/-- Decimal rendering of an integer, as produced by JavaScript number
stringification for integral values. -/
def printInt (i : Int) : JStr :=
  if i < 0 then '-' :: natDigits i.natAbs else natDigits i.natAbs

mutual
/-- JSON values (as produced by `JSON.parse`).  Numbers are modelled as
integers: every numeric literal the flows' prompts and validators deal in is
integral, and floating point is not faithfully statable anyway. -/
inductive Json where
  | null : Json
  | bool (b : Bool) : Json
  | num (n : Int) : Json
  | str (s : JStr) : Json
  | arr (elems : JsonList) : Json
  | obj (fields : JsonFields) : Json

/-- A list of JSON values (array elements). -/
inductive JsonList where
  | nil : JsonList
  | cons (hd : Json) (tl : JsonList) : JsonList

/-- An association list of JSON object members, in source order (duplicates
possible; `JSON.parse` keeps the last occurrence). -/
inductive JsonFields where
  | nil : JsonFields
  | cons (k : JStr) (v : Json) (tl : JsonFields) : JsonFields
end

/-- Number of elements of a `JsonList` (JavaScript `array.length`). -/
def JsonList.length : JsonList → Nat
  | .nil => 0
  | .cons _ t => t.length + 1

/-- String-escaping of one character as done by `JSON.stringify`
(restricted to the escapes the printer needs). -/
def escChar (c : Char) : JStr :=
  if c = '"' then ['\\', '"']
  else if c = '\\' then ['\\', '\\']
  else if c = '\n' then ['\\', 'n']
  else if c = '\t' then ['\\', 't']
  else if c = '\r' then ['\\', 'r']
  else [c]

/-- Escape a whole string body. -/
def escStr : JStr → JStr
  | [] => []
  | c :: t => escChar c ++ escStr t

mutual
/-- Compact JSON serialization, modelling `JSON.stringify` (no extra
whitespace). -/
def printJsonL : Json → JStr
  | .null => 'n' :: 'u' :: 'l' :: 'l' :: []
  | .bool true => 't' :: 'r' :: 'u' :: 'e' :: []
  | .bool false => 'f' :: 'a' :: 'l' :: 's' :: 'e' :: []
  | .num i => printInt i
  | .str s => '"' :: escStr s ++ ['"']
  | .arr xs => '[' :: printElemsL xs ++ [']']
  | .obj fs => '{' :: printFieldsL fs ++ ['}']

/-- Comma-separated serialization of array elements. -/
def printElemsL : JsonList → JStr
  | .nil => []
  | .cons x .nil => printJsonL x
  | .cons x (.cons y t) => printJsonL x ++ ',' :: printElemsL (.cons y t)

/-- Comma-separated serialization of object members. -/
def printFieldsL : JsonFields → JStr
  | .nil => []
  | .cons k v .nil => '"' :: escStr k ++ '"' :: ':' :: printJsonL v
  | .cons k v (.cons k2 v2 t) =>
    ('"' :: escStr k ++ '"' :: ':' :: printJsonL v) ++
      ',' :: printFieldsL (.cons k2 v2 t)
end

/-- Skip JSON whitespace. -/
def skipWs (l : JStr) : JStr := l.dropWhile isJsonWs

/-- Un-escape one escaped character of a JSON string literal. -/
def unescChar (e : Char) : Option Char :=
  if e = '"' then some '"'
  else if e = '\\' then some '\\'
  else if e = '/' then some '/'
  else if e = 'n' then some '\n'
  else if e = 't' then some '\t'
  else if e = 'r' then some '\r'
  else if e = 'b' then some (Char.ofNat 8)
  else if e = 'f' then some (Char.ofNat 12)
  else none

/-- Parse the body of a JSON string literal (after the opening quote), up to
and including the closing quote.  Returns the decoded string and the rest of
the input. -/
def parseStrBody : JStr → Option (JStr × JStr)
  | [] => none
  | c :: rest =>
    if c = '"' then some ([], rest)
    else if c = '\\' then
      match rest with
      | [] => none
      | e :: rest2 =>
        match unescChar e with
        | none => none
        | some d => (parseStrBody rest2).map fun p => (d :: p.1, p.2)
    else (parseStrBody rest).map fun p => (c :: p.1, p.2)

/-- Consume a maximal run of decimal digits, accumulating their value. -/
def parseDigits : Nat → JStr → Nat × JStr
  | acc, [] => (acc, [])
  | acc, c :: rest =>
    if c.isDigit then parseDigits (acc * 10 + digitVal c) rest
    else (acc, c :: rest)

/-- Parse a JSON number (integral; an optional minus sign followed by at least
one digit). -/
def parseNum : JStr → Option (Json × JStr)
  | [] => none
  | c :: rest =>
    if c = '-' then
      match rest with
      | [] => none
      | d :: rest2 =>
        if d.isDigit then
          let p := parseDigits (digitVal d) rest2
          some (.num (-(p.1 : Int)), p.2)
        else none
    else if c.isDigit then
      let p := parseDigits (digitVal c) rest
      some (.num (p.1 : Int), p.2)
    else none

mutual
/-- Fuel-bounded JSON value parser (the model of `JSON.parse`).  Skips leading
whitespace, then dispatches on the first character.  Returns the value and the
unconsumed rest of the input. -/
def parseValueF : Nat → JStr → Option (Json × JStr)
  | 0, _ => none
  | n + 1, cs =>
    match skipWs cs with
    | [] => none
    | c :: rest =>
      if c = '{' then
        match skipWs rest with
        | '}' :: r2 => some (.obj .nil, r2)
        | r2 => (parseMembersF n r2).map fun p => (.obj p.1, p.2)
      else if c = '[' then
        match skipWs rest with
        | ']' :: r2 => some (.arr .nil, r2)
        | r2 => (parseElemsF n r2).map fun p => (.arr p.1, p.2)
      else if c = '"' then
        (parseStrBody rest).map fun p => (.str p.1, p.2)
      else if c = 't' then
        match rest with
        | 'r' :: 'u' :: 'e' :: r2 => some (.bool true, r2)
        | _ => none
      else if c = 'f' then
        match rest with
        | 'a' :: 'l' :: 's' :: 'e' :: r2 => some (.bool false, r2)
        | _ => none
      else if c = 'n' then
        match rest with
        | 'u' :: 'l' :: 'l' :: r2 => some (.null, r2)
        | _ => none
      else parseNum (c :: rest)

/-- Parse the members of a JSON object after the opening brace (nonempty
case), up to and including the closing brace. -/
def parseMembersF : Nat → JStr → Option (JsonFields × JStr)
  | 0, _ => none
  | n + 1, cs =>
    match skipWs cs with
    | '"' :: rest =>
      match parseStrBody rest with
      | none => none
      | some (key, r1) =>
        match skipWs r1 with
        | ':' :: r2 =>
          match parseValueF n r2 with
          | none => none
          | some (v, r3) =>
            match skipWs r3 with
            | ',' :: r4 => (parseMembersF n r4).map fun p => (.cons key v p.1, p.2)
            | '}' :: r4 => some (.cons key v .nil, r4)
            | _ => none
        | _ => none
    | _ => none

/-- Parse the elements of a JSON array after the opening bracket (nonempty
case), up to and including the closing bracket. -/
def parseElemsF : Nat → JStr → Option (JsonList × JStr)
  | 0, _ => none
  | n + 1, cs =>
    match parseValueF n cs with
    | none => none
    | some (v, r1) =>
      match skipWs r1 with
      | ',' :: r2 => (parseElemsF n r2).map fun p => (.cons v p.1, p.2)
      | ']' :: r2 => some (.cons v .nil, r2)
      | _ => none
end

/-- The model of `JSON.parse`: parse one JSON value and require only
whitespace to follow.  The fuel `length + 1` is sufficient for every string in
the image of the printer (proved below). -/
def parseJsonL (cs : JStr) : Option Json :=
  match parseValueF (cs.length + 1) cs with
  | some (v, rest) => if skipWs rest = [] then some v else none
  | none => none

/-! ## The response normalizer (`ensureValidJson` and its phases)

All flow variants define the identical helper
`ensureValidJson(jsonString, maxIterations, jsonSchema, correctExample)` with
an ordered object of phases iterated in insertion order:
`RemoveJsonMark`, `RemoveOutsideJson`, `RemoveNewLine`, `TrimSpaces`,
`LlmHelper`.  The parser error argument is ignored by the four deterministic
phases; the `LlmHelper` phase's external `llmModule.generateText` call (whose
prompt embeds the candidate, the error, the optional schema and the optional
example) is modelled by an abstract function from the current candidate to the
returned message. -/

/-- Phase `RemoveJsonMark`: if the text starts with a ` ```json ` fence,
drop the first 7 characters, and if it then ends with ` ``` `, drop the last
3 (JavaScript `slice(7)` / `slice(0, -3)`). -/
def removeJsonMark (s : JStr) : JStr :=
  if List.isPrefixOf "```json".toList s then
    let t := s.drop 7
    if List.isSuffixOf "```".toList t then t.take (t.length - 3) else t
  else s

/-- Split a list at the first occurrence of the (nonempty) separator sequence:
returns the part before and the part after, or `none` when the separator does
not occur. -/
def breakSeq (sep : JStr) : JStr → Option (JStr × JStr)
  | [] => none
  | c :: rest =>
    if List.isPrefixOf sep (c :: rest) then some ([], (c :: rest).drop sep.length)
    else (breakSeq sep rest).map fun p => (c :: p.1, p.2)

/-- Does the separator sequence occur in the list (JavaScript
`String.prototype.includes`)? -/
def containsSeq (sep : JStr) (s : JStr) : Bool := (breakSeq sep s).isSome

/-- Fuel-bounded worker for `splitSeq` (the fuel `s.length` always suffices
for a nonempty separator, since every step consumes at least one character). -/
def splitSeqF (sep : JStr) : Nat → JStr → List JStr
  | 0, s => [s]
  | fuel + 1, s =>
    match breakSeq sep s with
    | none => [s]
    | some (b, a) => b :: splitSeqF sep fuel a

/-- JavaScript `String.prototype.split` with a nonempty string separator. -/
def splitSeq (sep : JStr) (s : JStr) : List JStr := splitSeqF sep s.length s

/-- Phase `RemoveOutsideJson`: if the text contains ` ```json `, take the
segment after the first such fence and truncate it at the following ` ``` `. -/
def removeOutsideJson (s : JStr) : JStr :=
  if containsSeq "```json".toList s then
    let parts := splitSeq "```json".toList s
    if parts.length > 1 then
      ((splitSeq "```".toList (parts.getD 1 [])).headD [])
    else s
  else s

/-- Phase `RemoveNewLine`: `replace(/\n/g, "")`. -/
def removeNewLine (s : JStr) : JStr := s.filter (fun c => c ≠ '\n')

/-- JavaScript `String.prototype.trim` (both-ends whitespace strip). -/
def trimSpaces (s : JStr) : JStr :=
  ((s.dropWhile isRegexWs).reverse.dropWhile isRegexWs).reverse

/-- The ordered phase list of `ensureValidJson`; the abstract `llm` function
stands for the `LlmHelper` phase's external repair call. -/
def phaseList (llm : JStr → JStr) : List (JStr → JStr) :=
  [removeJsonMark, removeOutsideJson, removeNewLine, trimSpaces, llm]

/-- One pass of the inner `for (const phase of phaseFunctions)` loop: before
each phase, try `JSON.parse` and return the current candidate on success;
otherwise feed the candidate through the phase.  `.error s` means the pass ran
out of phases, leaving candidate `s` for the next outer iteration. -/
def innerPass : List (JStr → JStr) → JStr → Except JStr JStr
  | [], s => .error s
  | p :: ps, s =>
    if (parseJsonL s).isSome then .ok s else innerPass ps (p s)

/-- The outer `while (maxIterations > 0)` loop, one recursive step per outer
iteration; when the budget is exhausted the source throws
`new Error("Unable to ensure valid JSON after all phases.")`. -/
def ensureValidJsonGo (phases : List (JStr → JStr)) : Nat → JStr → Except String JStr
  | 0, _ => .error "Unable to ensure valid JSON after all phases."
  | n + 1, s =>
    match innerPass phases s with
    | .ok out => .ok out
    | .error s2 => ensureValidJsonGo phases n s2

/-- The normalizer `ensureValidJson`.  The JavaScript budget is a number and
the loop guard is `maxIterations > 0`, so a budget `≤ 0` runs zero outer
iterations — modelled via `Int.toNat`. -/
def ensureValidJson (llm : JStr → JStr) (s : JStr) (maxIterations : Int) :
    Except String JStr :=
  ensureValidJsonGo (phaseList llm) maxIterations.toNat s

/-! ## The sanitizer and the detokenizer -/

/-- Step 3 of `sanitizeResponse`: `replace(/\s+/g, ' ')` — each maximal run of
whitespace becomes a single space. -/
def collapseWs : JStr → JStr
  | [] => []
  | a :: rest =>
    if isRegexWs a then
      match rest with
      | [] => [' ']
      | b :: _ => if isRegexWs b then collapseWs rest else ' ' :: collapseWs rest
    else a :: collapseWs rest

/-- Step 4 of `sanitizeResponse`: `replace(/ØŒ/g, ',')` — the two-character
sequence U+00D8 U+0152 (a mojibake rendering of the Arabic comma) becomes a
comma.  (After the non-ASCII filter of step 1 this is always a no-op.) -/
def replaceArabicComma : JStr → JStr
  | [] => []
  | [c] => [c]
  | a :: b :: rest =>
    if a = Char.ofNat 0xD8 && b = Char.ofNat 0x152 then
      ',' :: replaceArabicComma rest
    else a :: replaceArabicComma (b :: rest)

/-- The character class of the final keep-filter `[^\w\s,.!?()-]` (negated):
word characters, whitespace, and the punctuation `, . ! ? ( ) -`. -/
def keepChar (c : Char) : Bool :=
  c.isAlphanum || c = '_' || isRegexWs c ||
  c = ',' || c = '.' || c = '!' || c = '?' || c = '(' || c = ')' || c = '-'

/-- The flows' `sanitizeResponse` helper: drop non-ASCII characters, turn
underscores into spaces, collapse whitespace runs, replace the mojibake Arabic
comma, keep only word/space/basic-punctuation characters, and trim. -/
def sanitizeResponse (s : JStr) : JStr :=
  trimSpaces (List.filter keepChar
    (replaceArabicComma
      (collapseWs
        ((s.filter (fun c => c.toNat ≤ 127)).map
          (fun c => if c = '_' then ' ' else c)))))

/-- The `detokenize` helper of GenerateAnalysis.js:
`text => Object.values(text).join('')` — `Object.values` of a string is its
list of single-character strings in index order, re-joined with the empty
separator. -/
def detokenize (s : JStr) : JStr := (s.map (fun c => [c])).flatten

/-! ## Field access, truthiness and the validators -/

/-- Last-occurrence lookup in an object's members (`JSON.parse` keeps the last
duplicate key, and property access sees that one). -/
def lookupLast (k : JStr) : JsonFields → Option Json
  | .nil => none
  | .cons k2 v t =>
    match lookupLast k t with
    | some r => some r
    | none => if k2 = k then some v else none

/-- JavaScript property access `j[k]` on a parsed JSON value: only objects
have (own) data properties; everything else yields `undefined` (`none`).
(Accessing a property of `null` throws a `TypeError` in JavaScript; in every
use below that access sits behind a truthiness guard or inside the retry
loop's catch-all, so folding it into `none` is observationally equivalent.) -/
def getFieldJ (j : Json) (k : JStr) : Option Json :=
  match j with
  | .obj fs => lookupLast k fs
  | _ => none

/-- JavaScript truthiness of a possibly-`undefined` JSON value. -/
def jsTruthy : Option Json → Bool
  | none => false
  | some .null => false
  | some (.bool b) => b
  | some (.num n) => n != 0
  | some (.str s) => !s.isEmpty
  | some (.arr _) => true
  | some (.obj _) => true

/-- JavaScript `.length` on a parsed JSON value: arrays and strings have a
numeric length; objects may carry a literal `"length"` member; anything else
yields `undefined`. -/
def jsLengthVal : Json → Option Json
  | .arr xs => some (.num xs.length)
  | .str s => some (.num s.length)
  | .obj fs => lookupLast "length".toList fs
  | _ => none

/-- Strict equality `x === n` of a possibly-`undefined` value against the
number `n`. -/
def lenEq (o : Option Json) (n : Int) : Bool :=
  match o with
  | some (.num m) => m == n
  | _ => false

/-- The GenerateAnalysis.js validator:
`!result.biases || !result.scores || !result.explanations ||
 result.biases.length !== parseInt(topBiases) || ...` — `topN` stands for the
already-coerced `parseInt(this.parameters.topBiases)`. -/
def validGA (result : Json) (topN : Int) : Bool :=
  let biases := getFieldJ result "biases".toList
  let scores := getFieldJ result "scores".toList
  let explanations := getFieldJ result "explanations".toList
  jsTruthy biases && jsTruthy scores && jsTruthy explanations &&
  lenEq (biases.bind jsLengthVal) topN &&
  lenEq (scores.bind jsLengthVal) topN &&
  lenEq (explanations.bind jsLengthVal) topN

/-! ## The retry loops

The flows' retry loops share one skeleton (`let retries = 3; while (retries >
0) { try { ...attempt... break } catch { retries--; if (retries === 0) throw
error; ...augment?...; await delay } }`).  The external completion provider is
modelled per attempt: `behavior prompt k` is how the `llmModule.generateText`
promise of the `k`-th provider call (0-based) behaves — `some r` when it
settles within the per-attempt window (with `r` its value or rejection), and
`none` when it has not settled by then (so the race is won by the timer). -/

/-- `getLLMResponseWithTimeout`: race the provider promise against a timer
that rejects with `new Error('LLM request timed out')`. -/
def getLLMResponseWithTimeout (settled : Option (Except String JStr)) :
    Except String JStr :=
  match settled with
  | some r => r
  | none => .error "LLM request timed out"

/-- The body of one GenerateAnalysis.js attempt: take the raced provider
outcome, `detokenize` the message, `JSON.parse` it, and check the
result-structure validation; any failure is the caught error's message.
(`JSON.parse` failure messages are engine-specific; the model uses a fixed
message, which no retry-loop decision depends on.) -/
def attemptGA (resp : Except String JStr) (topN : Int) : Except String Json :=
  match resp with
  | .error e => .error e
  | .ok msg =>
    match parseJsonL (detokenize msg) with
    | none => .error "JSON parse error"
    | some result =>
      if validGA result topN then .ok result
      else .error "Invalid response format: array lengths do not match topBiases"

/-- Outcome of a whole retry loop, together with the number of provider calls
made. -/
inductive GAOutcome where
  | ok (result : Json) (calls : Nat) : GAOutcome
  | exhausted (e : String) (calls : Nat) : GAOutcome

/-- The GenerateAnalysis.js retry loop (`retries` is the current counter,
`calls` the number of provider calls already made; the loop is entered with
`retries = 3`, `calls = 0`).  The prompt is a `const`: every attempt submits
the same `analysisPrompt`.  On a caught error the counter is decremented and,
when it reaches zero, the last error is re-thrown. -/
def loopGA (behavior : JStr → Nat → Option (Except String JStr)) (topN : Int)
    (prompt : JStr) : Nat → Nat → GAOutcome
  | 0, calls => .exhausted "loop exited without attempts" calls
  | r + 1, calls =>
    match attemptGA (getLLMResponseWithTimeout (behavior prompt calls)) topN with
    | .ok result => .ok result (calls + 1)
    | .error e =>
      if r = 0 then .exhausted e (calls + 1)
      else loopGA behavior topN prompt r (calls + 1)

/-- The per-attempt trace of the GenerateAnalysis.js loop: the prompt
submitted to the provider and the attempt's outcome, in attempt order. -/
def traceGA (behavior : JStr → Nat → Option (Except String JStr)) (topN : Int)
    (prompt : JStr) : Nat → Nat → List (JStr × Except String Json)
  | 0, _ => []
  | r + 1, calls =>
    match attemptGA (getLLMResponseWithTimeout (behavior prompt calls)) topN with
    | .ok result => [(prompt, .ok result)]
    | .error e =>
      (prompt, .error e) ::
        (if r = 0 then [] else traceGA behavior topN prompt r (calls + 1))

/-- Template-literal rendering of a JSON value (only the cases the part_002
validation messages can actually reach: a truthy `.length` value). -/
def jsDisplay : Option Json → JStr
  | some (.num m) => printInt m
  | some (.str s) => s
  | some (.bool true) => "true".toList
  | some (.bool false) => "false".toList
  | some .null => "null".toList
  | none => "undefined".toList
  | some (.arr _) => "[object Array]".toList
  | some (.obj _) => "[object Object]".toList

/-- The part_002 result validation:
`if (!result.bias_pairs || !result.bias_pairs.length) throw ...;
 if (result.bias_pairs.length !== expectedPairs) throw ...` with
`expectedPairs = parseInt(this.parameters.topBiases)` (modelled, like the
interpolated parameter itself, by the integer `topN`). -/
def validateP2Check (result : Json) (topN : Int) : Except String Json :=
  let bp := getFieldJ result "bias_pairs".toList
  let lenV := bp.bind jsLengthVal
  if !(jsTruthy bp && jsTruthy lenV) then
    .error "Invalid response format: bias_pairs array is empty or missing"
  else if !(lenEq lenV topN) then
    .error (String.mk ("Invalid response format: Expected exactly ".toList ++
      printInt topN ++ " bias pairs, got ".toList ++ jsDisplay lenV))
  else .ok result

/-- The body of one part_002 attempt: take the raced provider outcome, run
`ensureValidJson` with budget 3 over the message (the schema and example
strings only feed the LlmHelper prompt, absorbed in `llm`), `JSON.parse` the
survivor, and validate. -/
def attemptP2 (llm : JStr → JStr) (resp : Except String JStr) (topN : Int) :
    Except String Json :=
  match resp with
  | .error e => .error e
  | .ok msg =>
    match ensureValidJson llm msg 3 with
    | .error e => .error e
    | .ok valid =>
      match parseJsonL valid with
      | none => .error "JSON parse error"
      | some result => validateP2Check result topN

/-- The failure-context block part_002 appends to `analysisPrompt` on a failed
attempt with attempts remaining (`analysisPrompt += ...`), with the caught
error's message and the `topBiases` parameter interpolated. -/
def failureContextP2 (topN : Int) (errorMessage : String) : JStr :=
  "\n\nPrevious attempt failed with error: ".toList ++ errorMessage.toList ++
  (String.toList ("\n                    Please ensure your response:" ++
   "\n                    1. Is valid JSON that starts with \x7b and ends with \x7d" ++
   "\n                    2. Contains exactly ")) ++ printInt topN ++
  (String.toList (" items in bias_pairs" ++
   "\n                    3. Uses double quotes for all strings" ++
   "\n                    4. Does not include any text outside the JSON structure" ++
   "\n                    5. Has properly formatted scores with x and y coordinates as numbers (not strings)" ++
   "\n                    6. Follows the exact structure shown above" ++
   "\n                    7. Has no trailing commas" ++
   "\n                    8. Has no comments within the JSON"))

/-- The per-attempt trace of the part_002 loop: the prompt submitted and the
attempt outcome.  On a failure with attempts remaining, the failure-context
block is appended to the prompt before the next attempt. -/
def traceP2 (llm : JStr → JStr)
    (behavior : JStr → Nat → Option (Except String JStr)) (topN : Int) :
    Nat → Nat → JStr → List (JStr × Except String Json)
  | 0, _, _ => []
  | r + 1, calls, prompt =>
    match attemptP2 llm (getLLMResponseWithTimeout (behavior prompt calls)) topN with
    | .ok result => [(prompt, .ok result)]
    | .error e =>
      (prompt, .error e) ::
        (if r = 0 then []
         else traceP2 llm behavior topN r (calls + 1)
                (prompt ++ failureContextP2 topN e))

/-- The prompt-growth property of a retry trace: every attempt after the first
follows a failed attempt and submits exactly the previous prompt extended with
the failure-context block built from the previous attempt's error. -/
def PromptChain (topN : Int) : List (JStr × Except String Json) → Prop
  | [] => True
  | [_] => True
  | (p1, o1) :: (p2, o2) :: rest =>
    (∃ e, o1 = .error e ∧ p2 = p1 ++ failureContextP2 topN e) ∧
      PromptChain topN ((p2, o2) :: rest)

/-- Does the list not start with a decimal digit?  (The only token of the
grammar that is parsed greedily is a number, so this is the sole separation
condition the printer/parser round trip needs on the trailing input.) -/
def headNotDigit : JStr → Bool
  | [] => true
  | c :: _ => !c.isDigit

mutual
/-- Fuel sufficient for `parseValueF` to parse the printed form of a value. -/
def jfuel : Json → Nat
  | .null => 1
  | .bool _ => 1
  | .num _ => 1
  | .str _ => 1
  | .arr xs => 1 + efuel xs
  | .obj fs => 1 + mfuel fs

/-- Fuel sufficient for `parseElemsF` on printed array elements. -/
def efuel : JsonList → Nat
  | .nil => 0
  | .cons x t => 1 + max (jfuel x) (efuel t)

/-- Fuel sufficient for `parseMembersF` on printed object members. -/
def mfuel : JsonFields → Nat
  | .nil => 0
  | .cons _ v t => 1 + max (jfuel v) (mfuel t)
end

/-! ## Basic lemmas: whitespace skipping and digits -/

theorem skipWs_cons_not {c : Char} (h : isJsonWs c = false) (l : JStr) :
    skipWs (c :: l) = c :: l := by
  simp [skipWs, List.dropWhile, h]

theorem skipWs_cons_ws {c : Char} (h : isJsonWs c = true) (l : JStr) :
    skipWs (c :: l) = skipWs l := by
  simp [skipWs, List.dropWhile, h]

theorem skipWs_idem (l : JStr) : skipWs (skipWs l) = skipWs l := by
  induction l with
  | nil => rfl
  | cons c t ih =>
    cases h : isJsonWs c
    · rw [skipWs_cons_not h, skipWs_cons_not h]
    · rw [skipWs_cons_ws h, ih]

theorem skipWs_sublist (l : JStr) : (skipWs l).Sublist l :=
  List.dropWhile_sublist isJsonWs

theorem digitChar_facts {d : Nat} (h : d < 10) :
    (digitChar d).isDigit = true ∧ digitVal (digitChar d) = d ∧
    isJsonWs (digitChar d) = false ∧ digitChar d ≠ '-' ∧ digitChar d ≠ '{' ∧
    digitChar d ≠ '[' ∧ digitChar d ≠ '"' ∧ digitChar d ≠ 't' ∧
    digitChar d ≠ 'f' ∧ digitChar d ≠ 'n' ∧ digitChar d ≠ ']' ∧
    digitChar d ≠ '}' ∧ digitChar d ≠ ',' := by
  interval_cases d <;> exact ⟨rfl, rfl, rfl, by decide, by decide, by decide,
    by decide, by decide, by decide, by decide, by decide, by decide, by decide⟩

theorem natDigits_head (n : Nat) :
    ∃ d cs, d < 10 ∧ natDigits n = digitChar d :: cs := by
  rw [natDigits]
  generalize hf : n + 1 = fuel
  have h : n < fuel := by omega
  clear hf
  induction fuel generalizing n with
  | zero => omega
  | succ f ih =>
    by_cases h10 : n < 10
    · exact ⟨n, [], h10, by simp [natDigitsF, h10]⟩
    · have hn : n / 10 < f := by
        have h1 : n / 10 < n := Nat.div_lt_self (by omega) (by omega)
        omega
      obtain ⟨d, cs, hd, heq⟩ := ih _ hn
      exact ⟨d, cs ++ [digitChar (n % 10)], hd, by simp [natDigitsF, h10, heq]⟩

theorem parseDigits_stop {acc : Nat} {rest : JStr} (h : headNotDigit rest = true) :
    parseDigits acc rest = (acc, rest) := by
  cases rest with
  | nil => rfl
  | cons c t =>
    simp only [headNotDigit, Bool.not_eq_true'] at h
    simp [parseDigits, h]

theorem parseDigits_digits {fuel : Nat} : ∀ {n : Nat}, n < fuel →
    ∀ (acc : Nat) (rest : JStr),
    parseDigits acc (natDigitsF fuel n ++ rest) =
      parseDigits (acc * 10 ^ (natDigitsF fuel n).length + n) rest := by
  induction fuel with
  | zero => omega
  | succ f ih =>
    intro n h acc rest
    by_cases h10 : n < 10
    · obtain ⟨hdig, hval, -⟩ := digitChar_facts h10
      simp [natDigitsF, h10, parseDigits, hdig, hval]
    · have hn : n / 10 < f := by
        have h1 : n / 10 < n := Nat.div_lt_self (by omega) (by omega)
        omega
      obtain ⟨hdig, hval, -⟩ := digitChar_facts (Nat.mod_lt n (by omega))
      rw [natDigitsF]
      simp only [h10, if_false, List.append_assoc, List.singleton_append]
      rw [ih hn, parseDigits]
      simp only [hdig, if_true, hval]
      have harith : (acc * 10 ^ (natDigitsF f (n / 10)).length + n / 10) * 10 + n % 10 =
          acc * (10 ^ (natDigitsF f (n / 10)).length * 10) + (n / 10 * 10 + n % 10) := by
        ring
      have h2 : n / 10 * 10 + n % 10 = n := by omega
      have hlen : (natDigitsF f (n / 10) ++ [digitChar (n % 10)]).length =
          (natDigitsF f (n / 10)).length + 1 := by simp
      rw [harith, h2, hlen, pow_succ]

theorem parseDigits_natDigits {n : Nat} {rest : JStr}
    (h : headNotDigit rest = true) :
    parseDigits 0 (natDigits n ++ rest) = (n, rest) := by
  rw [natDigits, parseDigits_digits (Nat.lt_succ_self n)]
  simpa using parseDigits_stop h

theorem parseNum_printInt {i : Int} {rest : JStr} (h : headNotDigit rest = true) :
    parseNum (printInt i ++ rest) = some (.num i, rest) := by
  obtain ⟨d, cs, hd, heq⟩ := natDigits_head i.natAbs
  obtain ⟨hdig, hval, -, hdash, -⟩ := digitChar_facts hd
  have key : parseDigits (digitVal (digitChar d)) (cs ++ rest) = (i.natAbs, rest) := by
    have h0 : parseDigits 0 (natDigits i.natAbs ++ rest) = (i.natAbs, rest) :=
      parseDigits_natDigits h
    rw [heq, List.cons_append, parseDigits] at h0
    simpa [hdig] using h0
  by_cases hi : i < 0
  · have hiv : -(i.natAbs : Int) = i := by omega
    rw [printInt, if_pos hi, List.cons_append, heq, List.cons_append]
    simp only [parseNum, reduceIte, hdig, if_true, key, hiv]
  · have hiv : ((i.natAbs : Nat) : Int) = i := by omega
    rw [printInt, if_neg hi, heq, List.cons_append]
    simp only [parseNum, hdash, if_false, hdig, if_true, key, hiv]

/-! ## String-literal and printer head lemmas -/

theorem parseStrBody_quote (rest : JStr) :
    parseStrBody ('"' :: rest) = some ([], rest) := by
  rw [parseStrBody.eq_def]; simp

theorem parseStrBody_esc (e : Char) (rest : JStr) :
    parseStrBody ('\\' :: e :: rest) =
      match unescChar e with
      | none => none
      | some d => (parseStrBody rest).map fun p => (d :: p.1, p.2) := by
  rw [parseStrBody.eq_def]; simp

theorem parseStrBody_other {c : Char} (h1 : c ≠ '"') (h2 : c ≠ '\\')
    (rest : JStr) :
    parseStrBody (c :: rest) = (parseStrBody rest).map fun p => (c :: p.1, p.2) := by
  rw [parseStrBody.eq_def]; simp [h1, h2]

theorem parseStrBody_escStr (s : JStr) : ∀ rest,
    parseStrBody (escStr s ++ '"' :: rest) = some (s, rest) := by
  induction s with
  | nil => intro rest; simpa [escStr] using parseStrBody_quote rest
  | cons c t ih =>
    intro rest
    by_cases h1 : c = '"'
    · subst h1
      simp [escStr, escChar, parseStrBody_esc, unescChar, ih]
    · by_cases h2 : c = '\\'
      · subst h2
        simp [escStr, escChar, parseStrBody_esc, unescChar, ih]
      · by_cases h3 : c = '\n'
        · subst h3
          simp [escStr, escChar, parseStrBody_esc, unescChar, ih]
        · by_cases h4 : c = '\t'
          · subst h4
            simp [escStr, escChar, parseStrBody_esc, unescChar, ih]
          · by_cases h5 : c = '\r'
            · subst h5
              simp [escStr, escChar, parseStrBody_esc, unescChar, ih]
            · simp [escStr, escChar, h1, h2, h3, h4, h5,
                parseStrBody_other h1 h2, ih]

theorem printJsonL_head (v : Json) :
    ∃ c cs, printJsonL v = c :: cs ∧ isJsonWs c = false ∧
      c ≠ ']' ∧ c ≠ '}' ∧ c ≠ ',' := by
  cases v with
  | null => exact ⟨'n', _, rfl, by decide, by decide, by decide, by decide⟩
  | bool b =>
    cases b
    · exact ⟨'f', _, rfl, by decide, by decide, by decide, by decide⟩
    · exact ⟨'t', _, rfl, by decide, by decide, by decide, by decide⟩
  | num i =>
    by_cases hi : i < 0
    · exact ⟨'-', natDigits i.natAbs, by simp [printJsonL, printInt, hi],
        by decide, by decide, by decide, by decide⟩
    · obtain ⟨d, cs, hd, heq⟩ := natDigits_head i.natAbs
      obtain ⟨-, -, hws, -, -, -, -, -, -, -, hne1, hne2, hne3⟩ := digitChar_facts hd
      exact ⟨digitChar d, cs, by simp [printJsonL, printInt, hi, heq], hws,
        hne1, hne2, hne3⟩
  | str s => exact ⟨'"', _, rfl, by decide, by decide, by decide, by decide⟩
  | arr xs => exact ⟨'[', _, rfl, by decide, by decide, by decide, by decide⟩
  | obj fs => exact ⟨'{', _, rfl, by decide, by decide, by decide, by decide⟩

theorem printJsonL_ne_nil (v : Json) : printJsonL v ≠ [] := by
  obtain ⟨c, cs, heq, -⟩ := printJsonL_head v
  simp [heq]

/-! ## Parser dispatch lemmas -/

theorem headNotDigit_cons (c : Char) (l : JStr) :
    headNotDigit (c :: l) = !c.isDigit := rfl

theorem parseValueF_dispatch (n : Nat) {c : Char} (hws : isJsonWs c = false)
    (h1 : c ≠ '{') (h2 : c ≠ '[') (h3 : c ≠ '"') (h4 : c ≠ 't') (h5 : c ≠ 'f')
    (h6 : c ≠ 'n') (cs : JStr) :
    parseValueF (n + 1) (c :: cs) = parseNum (c :: cs) := by
  rw [parseValueF.eq_2, skipWs_cons_not hws]
  simp [h1, h2, h3, h4, h5, h6]

theorem parseValueF_quote (n : Nat) (cs : JStr) :
    parseValueF (n + 1) ('"' :: cs) =
      (parseStrBody cs).map fun p => (Json.str p.1, p.2) := by
  rw [parseValueF.eq_2, skipWs_cons_not (by decide)]
  simp

theorem parseValueF_brace (n : Nat) (cs : JStr) :
    parseValueF (n + 1) ('{' :: cs) =
      (match skipWs cs with
       | '}' :: r2 => some (.obj .nil, r2)
       | r2 => (parseMembersF n r2).map fun p => (.obj p.1, p.2)) := by
  rw [parseValueF.eq_2, skipWs_cons_not (by decide)]
  simp

theorem parseValueF_bracket (n : Nat) (cs : JStr) :
    parseValueF (n + 1) ('[' :: cs) =
      (match skipWs cs with
       | ']' :: r2 => some (.arr .nil, r2)
       | r2 => (parseElemsF n r2).map fun p => (.arr p.1, p.2)) := by
  rw [parseValueF.eq_2, skipWs_cons_not (by decide)]
  simp

theorem parseValueF_true (n : Nat) (rest : JStr) :
    parseValueF (n + 1) ('t' :: 'r' :: 'u' :: 'e' :: rest) =
      some (.bool true, rest) := by
  rw [parseValueF.eq_2, skipWs_cons_not (by decide)]
  simp

theorem parseValueF_false (n : Nat) (rest : JStr) :
    parseValueF (n + 1) ('f' :: 'a' :: 'l' :: 's' :: 'e' :: rest) =
      some (.bool false, rest) := by
  rw [parseValueF.eq_2, skipWs_cons_not (by decide)]
  simp

theorem parseValueF_null (n : Nat) (rest : JStr) :
    parseValueF (n + 1) ('n' :: 'u' :: 'l' :: 'l' :: rest) =
      some (.null, rest) := by
  rw [parseValueF.eq_2, skipWs_cons_not (by decide)]
  simp

theorem printElemsL_head (x : Json) (t : JsonList) :
    ∃ c cs, printElemsL (.cons x t) = c :: cs ∧ isJsonWs c = false ∧
      c ≠ ']' ∧ c ≠ '}' ∧ c ≠ ',' := by
  obtain ⟨c, cs, heq, h1, h2, h3, h4⟩ := printJsonL_head x
  cases t with
  | nil => exact ⟨c, cs, by simp [printElemsL, heq], h1, h2, h3, h4⟩
  | cons y t2 =>
    exact ⟨c, cs ++ ',' :: printElemsL (.cons y t2),
      by simp [printElemsL, heq], h1, h2, h3, h4⟩

/-! ## Fuel arithmetic lemmas -/

theorem jfuel_pos (v : Json) : 1 ≤ jfuel v := by
  cases v <;> simp only [jfuel] <;> omega

theorem efuel_cons_pos (x : Json) (t : JsonList) : 1 ≤ efuel (.cons x t) := by
  simp only [efuel]; omega

theorem mfuel_cons_pos (k : JStr) (v : Json) (t : JsonFields) :
    1 ≤ mfuel (.cons k v t) := by
  simp only [mfuel]; omega

theorem efuel_cons_le {x : Json} {t : JsonList} {m : Nat}
    (hf : efuel (.cons x t) ≤ m + 1) : jfuel x ≤ m ∧ efuel t ≤ m := by
  have h1 : 1 + max (jfuel x) (efuel t) ≤ m + 1 := hf
  have h2 := Nat.le_max_left (jfuel x) (efuel t)
  have h3 := Nat.le_max_right (jfuel x) (efuel t)
  omega

theorem mfuel_cons_le {k : JStr} {v : Json} {t : JsonFields} {m : Nat}
    (hf : mfuel (.cons k v t) ≤ m + 1) : jfuel v ≤ m ∧ mfuel t ≤ m := by
  have h1 : 1 + max (jfuel v) (mfuel t) ≤ m + 1 := hf
  have h2 := Nat.le_max_left (jfuel v) (mfuel t)
  have h3 := Nat.le_max_right (jfuel v) (mfuel t)
  omega

theorem jfuel_arr_le {xs : JsonList} {n : Nat}
    (hf : jfuel (.arr xs) ≤ n + 1) : efuel xs ≤ n := by
  have h1 : 1 + efuel xs ≤ n + 1 := hf
  omega

theorem jfuel_obj_le {fs : JsonFields} {n : Nat}
    (hf : jfuel (.obj fs) ≤ n + 1) : mfuel fs ≤ n := by
  have h1 : 1 + mfuel fs ≤ n + 1 := hf
  omega

/-! ## Whitespace no-op lemmas for the printer's punctuation -/

theorem skipWs_colon (l : JStr) : skipWs (':' :: l) = ':' :: l :=
  skipWs_cons_not (by decide) l

theorem skipWs_comma (l : JStr) : skipWs (',' :: l) = ',' :: l :=
  skipWs_cons_not (by decide) l

theorem skipWs_rbrace (l : JStr) : skipWs ('}' :: l) = '}' :: l :=
  skipWs_cons_not (by decide) l

theorem skipWs_rbracket (l : JStr) : skipWs (']' :: l) = ']' :: l :=
  skipWs_cons_not (by decide) l

theorem skipWs_quote (l : JStr) : skipWs ('"' :: l) = '"' :: l :=
  skipWs_cons_not (by decide) l

/-! ## The printer/parser round trip -/

mutual
theorem rtValue (v : Json) : ∀ (fuel : Nat) (rest : JStr), jfuel v ≤ fuel →
    headNotDigit rest = true →
    parseValueF fuel (printJsonL v ++ rest) = some (v, rest) := by
  cases v with
  | null =>
    intro fuel rest hf _
    obtain ⟨n, rfl⟩ : ∃ n, fuel = n + 1 :=
      ⟨fuel - 1, by have := jfuel_pos Json.null; omega⟩
    exact parseValueF_null n rest
  | bool b =>
    intro fuel rest hf _
    obtain ⟨n, rfl⟩ : ∃ n, fuel = n + 1 :=
      ⟨fuel - 1, by have := jfuel_pos (Json.bool b); omega⟩
    cases b
    · exact parseValueF_false n rest
    · exact parseValueF_true n rest
  | num i =>
    intro fuel rest hf hd
    obtain ⟨n, rfl⟩ : ∃ n, fuel = n + 1 :=
      ⟨fuel - 1, by have := jfuel_pos (Json.num i); omega⟩
    have hnum := @parseNum_printInt i rest hd
    show parseValueF (n + 1) (printInt i ++ rest) = some (.num i, rest)
    by_cases hi : i < 0
    · rw [printInt, if_pos hi, List.cons_append] at hnum ⊢
      rw [parseValueF_dispatch n (by decide) (by decide) (by decide)
        (by decide) (by decide) (by decide) (by decide)]
      exact hnum
    · obtain ⟨d, cs, hdd, heq⟩ := natDigits_head i.natAbs
      obtain ⟨-, -, hws, -, hb1, hb2, hb3, hbt, hbf, hbn, -, -, -⟩ :=
        digitChar_facts hdd
      rw [printInt, if_neg hi, heq, List.cons_append] at hnum ⊢
      rw [parseValueF_dispatch n hws hb1 hb2 hb3 hbt hbf hbn]
      exact hnum
  | str s =>
    intro fuel rest hf _
    obtain ⟨n, rfl⟩ : ∃ n, fuel = n + 1 :=
      ⟨fuel - 1, by have := jfuel_pos (Json.str s); omega⟩
    have hsh : printJsonL (.str s) ++ rest = '"' :: (escStr s ++ '"' :: rest) := by
      show ('"' :: (escStr s ++ ['"'])) ++ rest = _
      simp
    rw [hsh, parseValueF_quote, parseStrBody_escStr]
    rfl
  | arr xs =>
    intro fuel rest hf _
    obtain ⟨n, rfl⟩ : ∃ n, fuel = n + 1 :=
      ⟨fuel - 1, by have := jfuel_pos (Json.arr xs); omega⟩
    cases xs with
    | nil =>
      show parseValueF (n + 1) ('[' :: ']' :: rest) = some (.arr .nil, rest)
      rw [parseValueF_bracket, skipWs_rbracket]
      rfl
    | cons x t =>
      have hfe : efuel (.cons x t) ≤ n := jfuel_arr_le hf
      have hsh : printJsonL (.arr (.cons x t)) ++ rest =
          '[' :: (printElemsL (.cons x t) ++ ']' :: rest) := by
        show ('[' :: (printElemsL (.cons x t) ++ [']'])) ++ rest = _
        simp
      rw [hsh, parseValueF_bracket]
      obtain ⟨c, cs, heq, hws, hne, -, -⟩ := printElemsL_head x t
      rw [heq, List.cons_append, skipWs_cons_not hws]
      have hmain : parseElemsF n (c :: (cs ++ ']' :: rest)) =
          some (.cons x t, rest) := by
        rw [← List.cons_append, ← heq]
        exact rtElems (.cons x t) n rest (by simp) hfe
      split
      · next heq2 => rw [List.cons.injEq] at heq2; exact absurd heq2.1 hne
      · rw [hmain]; rfl
  | obj fs =>
    intro fuel rest hf _
    obtain ⟨n, rfl⟩ : ∃ n, fuel = n + 1 :=
      ⟨fuel - 1, by have := jfuel_pos (Json.obj fs); omega⟩
    cases fs with
    | nil =>
      show parseValueF (n + 1) ('{' :: '}' :: rest) = some (.obj .nil, rest)
      rw [parseValueF_brace, skipWs_rbrace]
      rfl
    | cons k v t =>
      have hfm : mfuel (.cons k v t) ≤ n := jfuel_obj_le hf
      have hsh : printJsonL (.obj (.cons k v t)) ++ rest =
          '{' :: (printFieldsL (.cons k v t) ++ '}' :: rest) := by
        show ('{' :: (printFieldsL (.cons k v t) ++ ['}'])) ++ rest = _
        simp
      rw [hsh, parseValueF_brace]
      have hq : printFieldsL (.cons k v t) ++ '}' :: rest =
          '"' :: ((printFieldsL (.cons k v t) ++ '}' :: rest).tail) := by
        cases t <;> rfl
      rw [hq, skipWs_quote]
      have hmain : parseMembersF n
          ('"' :: ((printFieldsL (.cons k v t) ++ '}' :: rest).tail)) =
          some (.cons k v t, rest) := by
        rw [← hq]
        exact rtMembers (.cons k v t) n rest (by simp) hfm
      split
      · next heq2 => simp at heq2
      · rw [hmain]; rfl

theorem rtElems (xs : JsonList) : ∀ (fuel : Nat) (rest : JStr), xs ≠ .nil →
    efuel xs ≤ fuel →
    parseElemsF fuel (printElemsL xs ++ ']' :: rest) = some (xs, rest) := by
  cases xs with
  | nil => intro fuel rest hne _; exact absurd rfl hne
  | cons x t =>
    intro fuel rest _ hf
    obtain ⟨m, rfl⟩ : ∃ m, fuel = m + 1 :=
      ⟨fuel - 1, by have := efuel_cons_pos x t; omega⟩
    have hfx : jfuel x ≤ m := (efuel_cons_le hf).1
    cases t with
    | nil =>
      have hval := rtValue x m (']' :: rest) hfx (by simp [headNotDigit_cons])
      show parseElemsF (m + 1) (printJsonL x ++ ']' :: rest) = _
      rw [parseElemsF.eq_2]
      simp only [hval, skipWs_rbracket]
    | cons y t2 =>
      have hft : efuel (.cons y t2) ≤ m := (efuel_cons_le hf).2
      have hval := rtValue x m
        (',' :: (printElemsL (.cons y t2) ++ ']' :: rest)) hfx
        (by simp [headNotDigit_cons])
      have hrec := rtElems (.cons y t2) m rest (by simp) hft
      have hsh : printElemsL (.cons x (.cons y t2)) ++ ']' :: rest =
          printJsonL x ++ ',' :: (printElemsL (.cons y t2) ++ ']' :: rest) := by
        show (printJsonL x ++ ',' :: printElemsL (.cons y t2)) ++ ']' :: rest = _
        simp
      rw [hsh, parseElemsF.eq_2]
      simp only [hval, skipWs_comma, hrec]
      rfl

theorem rtMembers (fs : JsonFields) : ∀ (fuel : Nat) (rest : JStr),
    fs ≠ .nil → mfuel fs ≤ fuel →
    parseMembersF fuel (printFieldsL fs ++ '}' :: rest) = some (fs, rest) := by
  cases fs with
  | nil => intro fuel rest hne _; exact absurd rfl hne
  | cons k v t =>
    intro fuel rest _ hf
    obtain ⟨m, rfl⟩ : ∃ m, fuel = m + 1 :=
      ⟨fuel - 1, by have := mfuel_cons_pos k v t; omega⟩
    have hfv : jfuel v ≤ m := (mfuel_cons_le hf).1
    cases t with
    | nil =>
      have hval := rtValue v m ('}' :: rest) hfv (by simp [headNotDigit_cons])
      have hsh : printFieldsL (.cons k v .nil) ++ '}' :: rest =
          '"' :: (escStr k ++ '"' :: (':' :: (printJsonL v ++ '}' :: rest))) := by
        show ('"' :: (escStr k ++ '"' :: ':' :: printJsonL v)) ++ '}' :: rest = _
        simp
      rw [hsh, parseMembersF.eq_2, skipWs_quote]
      simp only [parseStrBody_escStr, skipWs_colon, hval, skipWs_rbrace]
    | cons k2 v2 t2 =>
      have hft : mfuel (.cons k2 v2 t2) ≤ m := (mfuel_cons_le hf).2
      have hval := rtValue v m
        (',' :: (printFieldsL (.cons k2 v2 t2) ++ '}' :: rest)) hfv
        (by simp [headNotDigit_cons])
      have hrec := rtMembers (.cons k2 v2 t2) m rest (by simp) hft
      have hsh : printFieldsL (.cons k v (.cons k2 v2 t2)) ++ '}' :: rest =
          '"' :: (escStr k ++ '"' :: (':' :: (printJsonL v ++
            ',' :: (printFieldsL (.cons k2 v2 t2) ++ '}' :: rest)))) := by
        show (('"' :: (escStr k ++ '"' :: ':' :: printJsonL v)) ++
          ',' :: printFieldsL (.cons k2 v2 t2)) ++ '}' :: rest = _
        simp
      rw [hsh, parseMembersF.eq_2, skipWs_quote]
      simp only [parseStrBody_escStr, skipWs_colon, hval, skipWs_comma, hrec]
      rfl
end

/-! ## Fuel bounds in terms of printed length -/

mutual
theorem jfuel_le_print (v : Json) : jfuel v ≤ (printJsonL v).length := by
  cases v with
  | null => decide
  | bool b => cases b <;> decide
  | num i =>
    obtain ⟨d, cs, hd, heq⟩ := natDigits_head i.natAbs
    show 1 ≤ (printInt i).length
    by_cases hi : i < 0 <;> simp [printInt, hi, heq]
  | str s =>
    show 1 ≤ ('"' :: (escStr s ++ ['"'])).length
    simp
  | arr xs =>
    cases xs with
    | nil => decide
    | cons x t =>
      have h := efuel_le_print (.cons x t)
      have hlen : (printJsonL (.arr (.cons x t))).length =
          (printElemsL (.cons x t)).length + 2 := by
        show ('[' :: (printElemsL (.cons x t) ++ [']'])).length = _
        simp
      show 1 + efuel (.cons x t) ≤ (printJsonL (.arr (.cons x t))).length
      omega
  | obj fs =>
    cases fs with
    | nil => decide
    | cons k v t =>
      have h := mfuel_le_print (.cons k v t)
      have hlen : (printJsonL (.obj (.cons k v t))).length =
          (printFieldsL (.cons k v t)).length + 2 := by
        show ('{' :: (printFieldsL (.cons k v t) ++ ['}'])).length = _
        simp
      show 1 + mfuel (.cons k v t) ≤ (printJsonL (.obj (.cons k v t))).length
      omega

theorem efuel_le_print (xs : JsonList) :
    efuel xs ≤ (printElemsL xs).length + 1 := by
  cases xs with
  | nil => decide
  | cons x t =>
    cases t with
    | nil =>
      have h := jfuel_le_print x
      have hm : max (jfuel x) (efuel JsonList.nil) ≤ (printJsonL x).length :=
        Nat.max_le.mpr ⟨h, by show 0 ≤ _; omega⟩
      show 1 + max (jfuel x) (efuel JsonList.nil) ≤ (printJsonL x).length + 1
      omega
    | cons y t2 =>
      have h1 := jfuel_le_print x
      have h2 := efuel_le_print (.cons y t2)
      have hlen : (printElemsL (.cons x (.cons y t2))).length =
          (printJsonL x).length + 1 + (printElemsL (.cons y t2)).length := by
        show (printJsonL x ++ ',' :: printElemsL (.cons y t2)).length = _
        simp
        omega
      have hm : max (jfuel x) (efuel (.cons y t2)) ≤
          (printElemsL (.cons x (.cons y t2))).length :=
        Nat.max_le.mpr ⟨by omega, by omega⟩
      show 1 + max (jfuel x) (efuel (.cons y t2)) ≤
        (printElemsL (.cons x (.cons y t2))).length + 1
      omega

theorem mfuel_le_print (fs : JsonFields) :
    mfuel fs ≤ (printFieldsL fs).length + 1 := by
  cases fs with
  | nil => decide
  | cons k v t =>
    cases t with
    | nil =>
      have h := jfuel_le_print v
      have hlen : (printFieldsL (.cons k v .nil)).length =
          (escStr k).length + 3 + (printJsonL v).length := by
        show ('"' :: (escStr k ++ '"' :: ':' :: printJsonL v)).length = _
        simp
        omega
      have hm : max (jfuel v) (mfuel JsonFields.nil) ≤
          (printFieldsL (.cons k v .nil)).length :=
        Nat.max_le.mpr ⟨by omega, by show 0 ≤ _; omega⟩
      show 1 + max (jfuel v) (mfuel JsonFields.nil) ≤
        (printFieldsL (.cons k v .nil)).length + 1
      omega
    | cons k2 v2 t2 =>
      have h1 := jfuel_le_print v
      have h2 := mfuel_le_print (.cons k2 v2 t2)
      have hlen : (printFieldsL (.cons k v (.cons k2 v2 t2))).length =
          (escStr k).length + 3 + (printJsonL v).length + 1 +
            (printFieldsL (.cons k2 v2 t2)).length := by
        show (('"' :: (escStr k ++ '"' :: ':' :: printJsonL v)) ++
          ',' :: printFieldsL (.cons k2 v2 t2)).length = _
        simp
        omega
      have hm : max (jfuel v) (mfuel (.cons k2 v2 t2)) ≤
          (printFieldsL (.cons k v (.cons k2 v2 t2))).length :=
        Nat.max_le.mpr ⟨by omega, by omega⟩
      show 1 + max (jfuel v) (mfuel (.cons k2 v2 t2)) ≤
        (printFieldsL (.cons k v (.cons k2 v2 t2))).length + 1
      omega
end

/-! ## Top-level parse lemmas -/

theorem parseValueF_skip (n : Nat) (cs : JStr) :
    parseValueF (n + 1) cs = parseValueF (n + 1) (skipWs cs) := by
  rw [parseValueF.eq_2, parseValueF.eq_2, skipWs_idem]

/-- The printed form of a value, wrapped in single newlines, parses back to
the value: `JSON.parse` accepts surrounding whitespace. -/
theorem parseJsonL_print_newlines (v : Json) :
    parseJsonL ('\n' :: (printJsonL v ++ ['\n'])) = some v := by
  obtain ⟨c, cs, heq, hws, -, -, -⟩ := printJsonL_head v
  have hskip : skipWs ('\n' :: (printJsonL v ++ ['\n'])) =
      printJsonL v ++ ['\n'] := by
    rw [skipWs_cons_ws (by decide), heq, List.cons_append, skipWs_cons_not hws]
  have hfuel : jfuel v ≤ ('\n' :: (printJsonL v ++ ['\n'])).length + 1 := by
    have h1 := jfuel_le_print v
    simp only [List.length_cons, List.length_append]
    omega
  unfold parseJsonL
  rw [parseValueF_skip, hskip, rtValue v _ ['\n'] hfuel (by decide)]
  rfl

/-- A text starting with a backtick is not valid JSON: the fenced form
` ```json ... ``` ` always fails the first parse attempt. -/
theorem parseJsonL_backtick (t : JStr) : parseJsonL ('`' :: t) = none := by
  unfold parseJsonL
  rw [parseValueF.eq_2, skipWs_cons_not (by decide)]
  simp [parseNum]

theorem parseNum_shape {l : JStr} {j : Json} {r : JStr}
    (h : parseNum l = some (j, r)) : ∃ i, j = .num i := by
  cases l with
  | nil => simp [parseNum] at h
  | cons c t =>
    rw [parseNum.eq_def] at h
    split at h
    · simp at h
    · split at h
      · split at h
        · simp at h
        · split at h
          · simp only [Option.some.injEq, Prod.mk.injEq] at h
            exact ⟨_, h.1.symm⟩
          · simp at h
      · split at h
        · simp only [Option.some.injEq, Prod.mk.injEq] at h
          exact ⟨_, h.1.symm⟩
        · simp at h

/-- The parser produces an object only from input that contains an opening
brace. -/
theorem parseValueF_obj_brace : ∀ {fuel : Nat} {cs r : JStr} {fs : JsonFields},
    parseValueF fuel cs = some (.obj fs, r) → '{' ∈ cs := by
  intro fuel cs r fs h
  match fuel with
  | 0 => simp [parseValueF] at h
  | n + 1 =>
    rw [parseValueF.eq_2] at h
    split at h
    · simp at h
    · next c rest hsk =>
      have hmem : c ∈ cs :=
        (skipWs_sublist cs).subset (by rw [hsk]; exact List.mem_cons_self _ _)
      split at h
      · next hc => rw [← hc]; exact hmem
      · exfalso
        split at h
        · split at h <;> simp at h
        · split at h
          · simp at h
          · split at h
            · split at h <;> simp at h
            · split at h
              · split at h <;> simp at h
              · split at h
                · split at h <;> simp at h
                · obtain ⟨i, hi⟩ := parseNum_shape h
                  simp at hi

/-- The parser produces an array only from input that contains an opening
bracket. -/
theorem parseValueF_arr_bracket : ∀ {fuel : Nat} {cs r : JStr} {xs : JsonList},
    parseValueF fuel cs = some (.arr xs, r) → '[' ∈ cs := by
  intro fuel cs r xs h
  match fuel with
  | 0 => simp [parseValueF] at h
  | n + 1 =>
    rw [parseValueF.eq_2] at h
    split at h
    · simp at h
    · next c rest hsk =>
      have hmem : c ∈ cs :=
        (skipWs_sublist cs).subset (by rw [hsk]; exact List.mem_cons_self _ _)
      split at h
      · split at h <;> simp at h
      · split at h
        · next hc => rw [← hc]; exact hmem
        · exfalso
          split at h
          · simp at h
          · split at h
            · split at h <;> simp at h
            · split at h
              · split at h <;> simp at h
              · split at h
                · split at h <;> simp at h
                · obtain ⟨i, hi⟩ := parseNum_shape h
                  simp at hi

/-! ## Normalizer lemmas -/

theorem isPrefixOf_append_self (p t : JStr) :
    List.isPrefixOf p (p ++ t) = true := by
  induction p with
  | nil => simp [List.isPrefixOf]
  | cons c cs ih => simp [List.isPrefixOf, ih]

theorem isSuffixOf_append_self (p t : JStr) :
    List.isSuffixOf p (t ++ p) = true := by
  simp [List.isSuffixOf, List.reverse_append, isPrefixOf_append_self]

/-- What the `RemoveJsonMark` phase does to a freshly fenced payload. -/
theorem removeJsonMark_fence (P : JStr) :
    removeJsonMark ("```json\n".toList ++ P ++ "\n```".toList) =
      '\n' :: (P ++ ['\n']) := by
  have hshape : "```json\n".toList ++ P ++ "\n```".toList =
      "```json".toList ++ (('\n' :: (P ++ ['\n'])) ++ "```".toList) := by
    show ("```json".toList ++ ['\n']) ++ P ++ "\n```".toList = _
    simp
  rw [removeJsonMark, hshape, isPrefixOf_append_self]
  simp only [if_true]
  have hdrop : ("```json".toList ++ (('\n' :: (P ++ ['\n'])) ++ "```".toList)).drop 7 =
      ('\n' :: (P ++ ['\n'])) ++ "```".toList := by
    have h7 : ("```json".toList : JStr).length = 7 := rfl
    rw [← h7, List.drop_left]
  rw [hdrop, isSuffixOf_append_self]
  simp only [if_true]
  have hlen3 : (('\n' :: (P ++ ['\n'])) ++ "```".toList).length - 3 =
      ('\n' :: (P ++ ['\n'])).length := by
    simp
  rw [hlen3, List.take_left]

theorem innerPass_ok {phases : List (JStr → JStr)} {s out : JStr}
    (h : innerPass phases s = .ok out) : (parseJsonL out).isSome := by
  induction phases generalizing s with
  | nil => simp [innerPass] at h
  | cons p ps ih =>
    rw [innerPass] at h
    split at h
    · next hp => cases h; exact hp
    · exact ih h

theorem ensureValidJsonGo_ok_or_err (phases : List (JStr → JStr)) :
    ∀ (n : Nat) (s : JStr),
    (∃ out, ensureValidJsonGo phases n s = .ok out ∧ (parseJsonL out).isSome) ∨
      ensureValidJsonGo phases n s =
        .error "Unable to ensure valid JSON after all phases." := by
  intro n
  induction n with
  | zero => intro s; exact Or.inr rfl
  | succ m ih =>
    intro s
    cases hip : innerPass phases s with
    | ok out =>
      refine Or.inl ⟨out, ?_, innerPass_ok hip⟩
      simp [ensureValidJsonGo, hip]
    | error s2 =>
      have h2 := ih s2
      simpa [ensureValidJsonGo, hip] using h2

/-- C3: for every syntactically valid JSON string `s` and every repair budget
of at least 1, `ensureValidJson` returns exactly `s`: the parse check before
the first phase succeeds and short-circuits, so no phase is applied (the
output is the unmodified input) and no LLM repair call is issued (the result
does not depend on the `llm` collaborator, which is universally quantified). -/
theorem c3_valid_json_short_circuit (llm : JStr → JStr) (s : JStr) (b : Int)
    (hb : 1 ≤ b) (hv : (parseJsonL s).isSome) :
    ensureValidJson llm s b = .ok s := by
  unfold ensureValidJson
  obtain ⟨m, hm⟩ : ∃ m, b.toNat = m + 1 := ⟨b.toNat - 1, by omega⟩
  rw [hm]
  have hip : innerPass (phaseList llm) s = .ok s := by
    rw [phaseList, innerPass]
    simp [hv]
  simp [ensureValidJsonGo, hip]

/-- Witness for C3 at the concrete valid JSON string `"1"` with budget 1. -/
theorem c3_witness :
    (1 : Int) ≤ 1 ∧ (parseJsonL "1".toList).isSome = true ∧
      ensureValidJson (fun s => s) "1".toList 1 = .ok "1".toList :=
  ⟨by decide, by decide,
    c3_valid_json_short_circuit (fun s => s) "1".toList 1 (by decide) (by decide)⟩

/-- C7: for every input string — including one that is already valid JSON —
calling `ensureValidJson` with a budget `≤ 0` runs zero outer iterations
(so it never attempts a parse) and immediately throws the exhaustion error;
it is not a no-op returning the input. -/
theorem c7_budget_nonpositive (llm : JStr → JStr) (s : JStr) (b : Int)
    (hb : b ≤ 0) :
    ensureValidJson llm s b =
      .error "Unable to ensure valid JSON after all phases." := by
  unfold ensureValidJson
  have h0 : b.toNat = 0 := by omega
  rw [h0]
  rfl

/-- Witness for C7 at budget 0 on an input that is already valid JSON (so the
immediate exhaustion is observably not a successful return of the input). -/
theorem c7_witness :
    (0 : Int) ≤ 0 ∧ (parseJsonL "1".toList).isSome = true ∧
      ensureValidJson (fun s => s) "1".toList 0 =
        .error "Unable to ensure valid JSON after all phases." :=
  ⟨by decide, by decide, c7_budget_nonpositive (fun s => s) "1".toList 0 (by decide)⟩

/-- C2 (counterexample): on the irreparable input `"{not json at all"` with
budget 1, the exhaustion failure is the fixed message
`"Unable to ensure valid JSON after all phases."`, which does not contain the
last candidate string (the input, unchanged by every phase) — so the error
does not carry the last candidate or the last parse error for diagnostics. -/
theorem c2_counterexample :
    ensureValidJson (fun s => s) "\x7bnot json at all".toList 1 =
      .error "Unable to ensure valid JSON after all phases." ∧
    containsSeq "\x7bnot json at all".toList
      "Unable to ensure valid JSON after all phases.".toList = false := by
  constructor
  · rfl
  · decide

/-- C2 (amended): whenever the repair budget is exhausted without any
candidate parsing, `ensureValidJson` fails with the fixed exhaustion error
`"Unable to ensure valid JSON after all phases."` (and in every other case it
returns a candidate that parses); the error value is a constant, carrying
neither the last parse error nor the last candidate string. -/
theorem c2_amended_fixed_exhaustion (llm : JStr → JStr) (s : JStr) (b : Int) :
    (∃ out, ensureValidJson llm s b = .ok out ∧ (parseJsonL out).isSome) ∨
      ensureValidJson llm s b =
        .error "Unable to ensure valid JSON after all phases." :=
  ensureValidJsonGo_ok_or_err (phaseList llm) b.toNat s

/-- C6: for every JSON value `v` and budget `≥ 1`, normalizing the fenced text
` ```json\n<json(v)>\n``` ` succeeds with no LLM involvement (the `llm`
collaborator is universally quantified): the first parse fails, the
`RemoveJsonMark` phase strips the fence markers, and the next short-circuit
check parses the result to exactly `v`. -/
theorem c6_fence_stripping (v : Json) (llm : JStr → JStr) (b : Int)
    (hb : 1 ≤ b) :
    ∃ out, ensureValidJson llm
        ("```json\n".toList ++ printJsonL v ++ "\n```".toList) b = .ok out ∧
      parseJsonL out = some v := by
  refine ⟨'\n' :: (printJsonL v ++ ['\n']), ?_, parseJsonL_print_newlines v⟩
  unfold ensureValidJson
  obtain ⟨m, hm⟩ : ∃ m, b.toNat = m + 1 := ⟨b.toNat - 1, by omega⟩
  rw [hm]
  have hparse0 : parseJsonL
      ("```json\n".toList ++ printJsonL v ++ "\n```".toList) = none := by
    have hsh : "```json\n".toList ++ printJsonL v ++ "\n```".toList =
        '`' :: ("``json\n".toList ++ printJsonL v ++ "\n```".toList) := rfl
    rw [hsh, parseJsonL_backtick]
  have hmark := removeJsonMark_fence (printJsonL v)
  have hip : innerPass (phaseList llm)
      ("```json\n".toList ++ printJsonL v ++ "\n```".toList) =
      .ok ('\n' :: (printJsonL v ++ ['\n'])) := by
    rw [phaseList, innerPass]
    simp only [hparse0, Option.isSome_none, Bool.false_eq_true, if_false]
    rw [hmark, innerPass]
    simp [parseJsonL_print_newlines v]
  rw [ensureValidJsonGo, hip]

/-- Witness for C6 at the value `{"a": 1}` with budget 1. -/
theorem c6_witness :
    (1 : Int) ≤ 1 ∧
    ∃ out, ensureValidJson (fun s => s)
        ("```json\n".toList ++
          printJsonL (.obj (.cons "a".toList (.num 1) .nil)) ++
          "\n```".toList) 1 = .ok out ∧
      parseJsonL out = some (.obj (.cons "a".toList (.num 1) .nil)) :=
  ⟨by decide,
    c6_fence_stripping (.obj (.cons "a".toList (.num 1) .nil))
      (fun s => s) 1 (by decide)⟩

/-- C10: `detokenize` — `Object.values(text).join('')` — is the identity on
strings: `Object.values` of a string is its list of single-character strings
in index order, and joining them with the empty separator rebuilds the
string. -/
theorem c10_detokenize_identity (s : JStr) : detokenize s = s := by
  induction s with
  | nil => rfl
  | cons c t ih => simp [detokenize] at ih ⊢; exact ih

/-! ## Sanitizer lemmas -/

theorem collapseWs_single_ws {a : Char} (ha : isRegexWs a = true) :
    collapseWs [a] = [' '] := by
  rw [collapseWs.eq_def]; simp [ha]

theorem collapseWs_cons_ws_ws {a b : Char} {t : JStr}
    (ha : isRegexWs a = true) (hb : isRegexWs b = true) :
    collapseWs (a :: b :: t) = collapseWs (b :: t) := by
  rw [collapseWs.eq_def]; simp [ha, hb]

theorem collapseWs_cons_ws_not {a b : Char} {t : JStr}
    (ha : isRegexWs a = true) (hb : isRegexWs b = false) :
    collapseWs (a :: b :: t) = ' ' :: collapseWs (b :: t) := by
  rw [collapseWs.eq_def]; simp [ha, hb]

theorem collapseWs_cons_not_ws {a : Char} {t : JStr}
    (ha : isRegexWs a = false) :
    collapseWs (a :: t) = a :: collapseWs t := by
  rw [collapseWs.eq_def]
  cases t <;> simp [ha]

theorem collapseWs_mem : ∀ {l : JStr} {c : Char}, c ∈ collapseWs l →
    c = ' ' ∨ (c ∈ l ∧ isRegexWs c = false) := by
  intro l
  induction l using collapseWs.induct with
  | case1 => intro c h; simp [collapseWs] at h
  | case2 a ha =>
    intro c h
    rw [collapseWs_single_ws ha] at h
    simp at h
    exact Or.inl h
  | case3 a ha b t hb ih =>
    intro c h
    rw [collapseWs_cons_ws_ws ha hb] at h
    rcases ih h with h1 | ⟨h2, h3⟩
    · exact Or.inl h1
    · exact Or.inr ⟨List.mem_cons_of_mem a h2, h3⟩
  | case4 a ha b t hb ih =>
    intro c h
    rw [collapseWs_cons_ws_not ha (by simpa using hb)] at h
    rcases List.mem_cons.mp h with h1 | h1
    · exact Or.inl h1
    · rcases ih h1 with h2 | ⟨h3, h4⟩
      · exact Or.inl h2
      · exact Or.inr ⟨List.mem_cons_of_mem a h3, h4⟩
  | case5 a t ha ih =>
    intro c h
    rw [collapseWs_cons_not_ws (by simpa using ha)] at h
    rcases List.mem_cons.mp h with h1 | h1
    · subst h1
      exact Or.inr ⟨List.mem_cons_self _ _, by simpa using ha⟩
    · rcases ih h1 with h2 | ⟨h3, h4⟩
      · exact Or.inl h2
      · exact Or.inr ⟨List.mem_cons_of_mem a h3, h4⟩

theorem replaceArabicComma_mem : ∀ {l : JStr} {c : Char},
    c ∈ replaceArabicComma l → c = ',' ∨ c ∈ l := by
  intro l
  induction l using replaceArabicComma.induct with
  | case1 => intro c h; simp [replaceArabicComma] at h
  | case2 d => intro c h; simp [replaceArabicComma] at h; simp [h]
  | case3 a b rest hab ih =>
    intro c h
    rw [replaceArabicComma, if_pos hab] at h
    rcases List.mem_cons.mp h with h1 | h1
    · exact Or.inl h1
    · rcases ih h1 with h2 | h2
      · exact Or.inl h2
      · exact Or.inr (List.mem_cons_of_mem a (List.mem_cons_of_mem b h2))
  | case4 a b rest hab ih =>
    intro c h
    rw [replaceArabicComma, if_neg hab] at h
    rcases List.mem_cons.mp h with h1 | h1
    · exact Or.inr (h1 ▸ List.mem_cons_self _ _)
    · rcases ih h1 with h2 | h2
      · exact Or.inl h2
      · exact Or.inr (List.mem_cons_of_mem a h2)

theorem trimSpaces_mem {l : JStr} {c : Char} (h : c ∈ trimSpaces l) : c ∈ l := by
  unfold trimSpaces at h
  rw [List.mem_reverse] at h
  have h1 := (List.dropWhile_sublist isRegexWs).subset h
  rw [List.mem_reverse] at h1
  exact (List.dropWhile_sublist isRegexWs).subset h1

/-- The character-class core of C9: every character surviving
`sanitizeResponse` is alphanumeric, a space, or one of `, . ! ? ( ) -`. -/
theorem sanitize_allowed (s : JStr) : ∀ c ∈ sanitizeResponse s,
    c.isAlphanum = true ∨ c = ' ' ∨ c ∈ [',', '.', '!', '?', '(', ')', '-'] := by
  intro c hc
  unfold sanitizeResponse at hc
  have h4 := trimSpaces_mem hc
  have hkeep : keepChar c = true := (List.mem_filter.mp h4).2
  have h3 : c ∈ replaceArabicComma (collapseWs
      ((s.filter (fun c => c.toNat ≤ 127)).map
        (fun c => if c = '_' then ' ' else c))) := (List.mem_filter.mp h4).1
  rcases replaceArabicComma_mem h3 with hc1 | h2
  · right; right; simp [hc1]
  · rcases collapseWs_mem h2 with hsp | ⟨h1, hnws⟩
    · right; left; exact hsp
    · obtain ⟨a, ha, hfa⟩ := List.mem_map.mp h1
      have hne : c ≠ '_' := by
        intro he
        rw [he] at hfa
        by_cases haa : a = '_'
        · rw [haa] at hfa; simp at hfa
        · rw [if_neg haa] at hfa; exact haa hfa
      unfold keepChar at hkeep
      rw [hnws] at hkeep
      simp [hne] at hkeep
      simp only [List.mem_cons, List.not_mem_nil, or_false]
      tauto

theorem parseJsonL_inv {cs : JStr} {v : Json} (h : parseJsonL cs = some v) :
    ∃ r, parseValueF (cs.length + 1) cs = some (v, r) := by
  unfold parseJsonL at h
  split at h
  · next w rest hp =>
    split at h
    · cases h; exact ⟨rest, hp⟩
    · simp at h
  · simp at h

/-- C9: for every input string, the output of `sanitizeResponse` contains only
alphanumeric characters, whitespace (a single space), and the punctuation
`, . ! ? ( ) -`; in particular it never contains braces, square brackets,
double quotes, or colons, so the sanitized text can never parse as a JSON
object or array. -/
theorem c9_sanitize_charset (s : JStr) :
    (∀ c ∈ sanitizeResponse s,
      c.isAlphanum = true ∨ c = ' ' ∨ c ∈ [',', '.', '!', '?', '(', ')', '-']) ∧
    '\x7b' ∉ sanitizeResponse s ∧ '\x7d' ∉ sanitizeResponse s ∧
    '[' ∉ sanitizeResponse s ∧ ']' ∉ sanitizeResponse s ∧
    '"' ∉ sanitizeResponse s ∧ ':' ∉ sanitizeResponse s ∧
    (∀ fs, parseJsonL (sanitizeResponse s) ≠ some (.obj fs)) ∧
    (∀ xs, parseJsonL (sanitizeResponse s) ≠ some (.arr xs)) := by
  refine ⟨sanitize_allowed s, ?_, ?_, ?_, ?_, ?_, ?_, ?_, ?_⟩
  · intro h; have := sanitize_allowed s _ h; revert this; decide
  · intro h; have := sanitize_allowed s _ h; revert this; decide
  · intro h; have := sanitize_allowed s _ h; revert this; decide
  · intro h; have := sanitize_allowed s _ h; revert this; decide
  · intro h; have := sanitize_allowed s _ h; revert this; decide
  · intro h; have := sanitize_allowed s _ h; revert this; decide
  · intro fs h
    obtain ⟨r, hp⟩ := parseJsonL_inv h
    have hb := parseValueF_obj_brace hp
    have := sanitize_allowed s _ hb
    revert this; decide
  · intro xs h
    obtain ⟨r, hp⟩ := parseJsonL_inv h
    have hb := parseValueF_arr_bracket hp
    have := sanitize_allowed s _ hb
    revert this; decide

/-- Witness for C9 at the concrete input "a{b:1}" (sanitized to "ab1"): the
character `a` of the output satisfies the allowed character class. -/
theorem c9_witness :
    ('a'.isAlphanum = true ∨ 'a' = ' ' ∨
      'a' ∈ [',', '.', '!', '?', '(', ')', '-']) ∧
    sanitizeResponse "a\x7bb:1\x7d".toList = "ab1".toList :=
  ⟨(c9_sanitize_charset "a\x7bb:1\x7d".toList).1 'a' (by
      show 'a' ∈ sanitizeResponse "a\x7bb:1\x7d".toList
      exact List.mem_cons_self _ _),
    rfl⟩

/-! ## Retry-loop lemmas -/

theorem attemptGA_ok {resp : Except String JStr} {topN : Int} {result : Json}
    (h : attemptGA resp topN = .ok result) : validGA result topN = true := by
  unfold attemptGA at h
  split at h
  · simp at h
  · split at h
    · simp at h
    · split at h
      · next hv => cases h; exact hv
      · simp at h

/-- C8: a structured result is returned from the GenerateAnalysis retry loop
only if it passed the caller's validation (biases, scores and explanations
present, each of length `parseInt(topBiases)`); every execution path that
returns a result went through the `validGA` check, so no partially valid
structure escapes. -/
theorem c8_no_partial_result_escapes
    (behavior : JStr → Nat → Option (Except String JStr)) (topN : Int)
    (prompt : JStr) :
    ∀ (r calls : Nat) (result : Json) (n : Nat),
    loopGA behavior topN prompt r calls = .ok result n →
      validGA result topN = true := by
  intro r
  induction r with
  | zero => intro calls result n h; simp [loopGA] at h
  | succ m ih =>
    intro calls result n h
    rw [loopGA] at h
    cases hat : attemptGA (getLLMResponseWithTimeout (behavior prompt calls)) topN with
    | ok res =>
      simp only [hat] at h
      cases h
      exact attemptGA_ok hat
    | error e =>
      simp only [hat] at h
      by_cases hm : m = 0
      · rw [if_pos hm] at h; simp at h
      · rw [if_neg hm] at h; exact ih _ _ _ h

/-- Witness for C8: a concrete run in which the provider returns a valid
payload for `topBiases = 1`; the loop accepts on the first attempt and the
returned result satisfies the validator. -/
theorem c8_witness :
    validGA (Json.obj (.cons "biases".toList (.arr (.cons (.str "a".toList) .nil))
      (.cons "scores".toList (.arr (.cons (.num 3) .nil))
      (.cons "explanations".toList (.arr (.cons (.str "x".toList) .nil))
        .nil)))) 1 = true :=
  c8_no_partial_result_escapes
    (fun _ _ => some (.ok (printJsonL
      (Json.obj (.cons "biases".toList (.arr (.cons (.str "a".toList) .nil))
        (.cons "scores".toList (.arr (.cons (.num 3) .nil))
        (.cons "explanations".toList (.arr (.cons (.str "x".toList) .nil))
          .nil)))))))
    1 "P".toList 3 0
    (Json.obj (.cons "biases".toList (.arr (.cons (.str "a".toList) .nil))
      (.cons "scores".toList (.arr (.cons (.num 3) .nil))
      (.cons "explanations".toList (.arr (.cons (.str "x".toList) .nil))
        .nil)))) 1 rfl

/-- C4: with a completion provider that always returns promptly and responses
that always fail the caller's validation, the GenerateAnalysis retry loop
(attempt budget 3) calls the provider exactly 3 times and then terminates by
propagating the last underlying (validation) error. -/
theorem c4_always_rejecting_validator
    (behavior : JStr → Nat → Option (Except String JStr)) (topN : Int)
    (prompt : JStr)
    (h : ∀ k, ∃ msg result, behavior prompt k = some (.ok msg) ∧
      parseJsonL (detokenize msg) = some result ∧ validGA result topN = false) :
    loopGA behavior topN prompt 3 0 =
      .exhausted "Invalid response format: array lengths do not match topBiases" 3 := by
  have hstep : ∀ k,
      attemptGA (getLLMResponseWithTimeout (behavior prompt k)) topN =
        .error "Invalid response format: array lengths do not match topBiases" := by
    intro k
    obtain ⟨msg, result, hb, hp, hv⟩ := h k
    simp [getLLMResponseWithTimeout, attemptGA, hb, hp, hv]
  show loopGA behavior topN prompt (2 + 1) 0 = _
  rw [loopGA, hstep 0]
  show loopGA behavior topN prompt (1 + 1) 1 = _
  rw [loopGA, hstep 1]
  show loopGA behavior topN prompt (0 + 1) 2 = _
  rw [loopGA, hstep 2]
  rfl

/-- Witness for C4: the provider always promptly returns `"{}"`, which parses
but fails the length validation for `topBiases = 1`; the loop makes exactly 3
calls and exhausts with the validation error. -/
theorem c4_witness :
    loopGA (fun _ _ => some (.ok "\x7b\x7d".toList)) 1 "P".toList 3 0 =
      .exhausted "Invalid response format: array lengths do not match topBiases" 3 :=
  c4_always_rejecting_validator (fun _ _ => some (.ok "\x7b\x7d".toList)) 1
    "P".toList (fun _ => ⟨"\x7b\x7d".toList, .obj .nil, rfl, rfl, rfl⟩)

/-- C5: a per-attempt timeout is treated like any other attempt failure: with
a provider promise that never settles within the window, every attempt ends
in the timeout rejection of the race, the same catch decrements the counter,
and after exactly 3 timed-out attempts the loop terminates with the timeout
error as the propagated last error (no unbounded hang: the model loop is a
total function). -/
theorem c5_timeout_counts_as_attempt
    (behavior : JStr → Nat → Option (Except String JStr)) (topN : Int)
    (prompt : JStr) (h : ∀ k, behavior prompt k = none) :
    loopGA behavior topN prompt 3 0 =
      .exhausted "LLM request timed out" 3 := by
  have hstep : ∀ k,
      attemptGA (getLLMResponseWithTimeout (behavior prompt k)) topN =
        .error "LLM request timed out" := by
    intro k
    rw [h k]
    rfl
  show loopGA behavior topN prompt (2 + 1) 0 = _
  rw [loopGA, hstep 0]
  show loopGA behavior topN prompt (1 + 1) 1 = _
  rw [loopGA, hstep 1]
  show loopGA behavior topN prompt (0 + 1) 2 = _
  rw [loopGA, hstep 2]
  rfl

/-- Witness for C5: the never-settling provider. -/
theorem c5_witness :
    loopGA (fun _ _ => none) 1 "P".toList 3 0 =
      .exhausted "LLM request timed out" 3 :=
  c5_timeout_counts_as_attempt (fun _ _ => none) 1 "P".toList (fun _ => rfl)

theorem traceP2_shape (llm : JStr → JStr)
    (behavior : JStr → Nat → Option (Except String JStr)) (topN : Int) :
    ∀ (m calls : Nat) (p : JStr),
    traceP2 llm behavior topN m calls p = [] ∨
      ∃ o rest, traceP2 llm behavior topN m calls p = (p, o) :: rest := by
  intro m calls p
  cases m with
  | zero => exact Or.inl rfl
  | succ m2 =>
    cases hat : attemptP2 llm (getLLMResponseWithTimeout (behavior p calls)) topN with
    | ok res => exact Or.inr ⟨.ok res, [], by rw [traceP2]; simp only [hat]⟩
    | error e =>
      exact Or.inr ⟨.error e,
        (if m2 = 0 then [] else traceP2 llm behavior topN m2 (calls + 1)
          (p ++ failureContextP2 topN e)),
        by rw [traceP2]; simp only [hat]⟩

/-- In the part_002 flow, every submitted prompt after the first extends the
previous one by exactly the failure-context block of the previous attempt's
error. -/
theorem traceP2_chain (llm : JStr → JStr)
    (behavior : JStr → Nat → Option (Except String JStr)) (topN : Int) :
    ∀ (r calls : Nat) (prompt : JStr),
    PromptChain topN (traceP2 llm behavior topN r calls prompt) := by
  intro r
  induction r with
  | zero => intro calls prompt; rw [traceP2]; trivial
  | succ m ih =>
    intro calls prompt
    rw [traceP2]
    cases hat : attemptP2 llm (getLLMResponseWithTimeout (behavior prompt calls)) topN with
    | ok res => simp only [hat]; trivial
    | error e =>
      simp only [hat]
      by_cases hm : m = 0
      · subst hm; simp only [if_pos rfl]; trivial
      · rw [if_neg hm]
        have hih := ih (calls + 1) (prompt ++ failureContextP2 topN e)
        rcases traceP2_shape llm behavior topN m (calls + 1)
            (prompt ++ failureContextP2 topN e) with hsh | ⟨o, rest, hsh⟩
        · rw [hsh]; trivial
        · rw [hsh] at hih ⊢
          exact ⟨⟨e, rfl, rfl⟩, hih⟩

/-- In the GenerateAnalysis.js flow the prompt is a `const`: every attempt
submits the same initial prompt. -/
theorem traceGA_prompts (behavior : JStr → Nat → Option (Except String JStr))
    (topN : Int) (prompt : JStr) :
    ∀ (r calls : Nat), ∀ pr ∈ traceGA behavior topN prompt r calls,
      pr.1 = prompt := by
  intro r
  induction r with
  | zero => intro calls pr h; simp [traceGA] at h
  | succ m ih =>
    intro calls pr h
    rw [traceGA] at h
    cases hat : attemptGA (getLLMResponseWithTimeout (behavior prompt calls)) topN with
    | ok res =>
      simp only [hat] at h
      simp at h
      subst h
      rfl
    | error e =>
      simp only [hat] at h
      rcases List.mem_cons.mp h with h1 | h1
      · rw [h1]
      · by_cases hm : m = 0
        · rw [if_pos hm] at h1; simp at h1
        · rw [if_neg hm] at h1; exact ih _ _ h1

/-- C1 (amended): prompt augmentation on failure is flow-specific.  In the
part_002 flow, whenever an attempt fails with attempts remaining, the
structured failure-context block built from the caught error is appended to
the prompt, so the prompt grows and the prompt submitted on attempt N+1
contains exactly the failure context of attempt N.  In the GenerateAnalysis.js
flow the prompt is constant: every attempt submits the unchanged initial
prompt and no failure context is ever appended. -/
theorem c1_prompt_growth_flow_specific :
    (∀ (llm : JStr → JStr)
       (behavior : JStr → Nat → Option (Except String JStr)) (topN : Int)
       (r calls : Nat) (prompt : JStr),
       PromptChain topN (traceP2 llm behavior topN r calls prompt)) ∧
    (∀ (behavior : JStr → Nat → Option (Except String JStr)) (topN : Int)
       (prompt : JStr) (r calls : Nat),
       ∀ pr ∈ traceGA behavior topN prompt r calls, pr.1 = prompt) :=
  ⟨fun llm behavior topN r calls prompt =>
      traceP2_chain llm behavior topN r calls prompt,
    fun behavior topN prompt r calls pr h =>
      traceGA_prompts behavior topN prompt r calls pr h⟩

/-- Witness for C1 (amended), GenerateAnalysis side: in a concrete failing
run, the first trace entry's submitted prompt is the initial prompt. -/
theorem c1_witness :
    (("P".toList, (Except.error "LLM request timed out" : Except String Json))).1 =
      "P".toList :=
  c1_prompt_growth_flow_specific.2 (fun _ _ => none) 1 "P".toList 3 0
    ("P".toList, Except.error "LLM request timed out") (List.mem_cons_self _ _)

/-- C1 (counterexample): in the GenerateAnalysis.js flow, a run in which every
attempt fails (timeout) submits the identical prompt on all three attempts —
no failure-context block is appended between attempts, although appending the
(nonempty) part_002-style failure-context block would have changed the
prompt.  This refutes the claim's "for every failing attempt in every flow
variant". -/
theorem c1_counterexample :
    (traceGA (fun _ _ => none) 1 "PROMPT".toList 3 0).map Prod.fst =
      ["PROMPT".toList, "PROMPT".toList, "PROMPT".toList] ∧
    ((traceGA (fun _ _ => none) 1 "PROMPT".toList 3 0).map Prod.snd).head? =
      some (.error "LLM request timed out") ∧
    "PROMPT".toList ++ failureContextP2 1 "LLM request timed out" ≠
      "PROMPT".toList := by
  exact ⟨rfl, rfl, by decide⟩
